import Mathlib

/-!
Verification of the `scs-paper` repository: structural-coefficient analyses of
networks against configuration-model (UBCM) nulls.

The repository's scripts (under `analyses/`) orchestrate an external
statistics/inference core (`pathcensus`: `PathCensus`, `UBCM`, `Inference`),
graph preprocessing (`src/utils.py`) and a dataset cache (`src/_ns.py`).
Code present in the repository (`utils.py`, `_ns.py`, the analysis scripts) is
embedded directly from the source; the external `pathcensus` core, which the
specification describes in detail (PathCensus coefficients, UBCM fitting and
sampling, p-value estimation and adjustment), is modelled from the
specification and each such definition is marked `Modelled from the spec:`.
-/

set_option autoImplicit false

namespace SCS

/-! ## PathCensus model: simple undirected graphs on `Fin n`

Modelled from the spec: the `pathcensus.PathCensus` motif statistic engine is
an external dependency (not in the repository source); §4.1 of the spec
describes it as computing, per node and globally, wedge (open two-path) and
triangle counts and their ratios on a simple undirected graph.
-/

/-- A simple undirected graph on vertex set `Fin n`: a Boolean adjacency
relation that is symmetric and loop-free.  This is the "simple graph after
preprocessing" data model of spec §3. -/
structure FinGraph (n : ℕ) where
  adj : Fin n → Fin n → Bool
  symm : ∀ i j, adj i j = adj j i
  loopless : ∀ i, adj i i = false

/-- Degree of a node: number of adjacent vertices. -/
def degree {n : ℕ} (G : FinGraph n) (i : Fin n) : ℕ :=
  (Finset.univ.filter fun j => G.adj i j).card

/-- Neighbourhood of a node as a `Finset`. -/
def nbhd {n : ℕ} (G : FinGraph n) (i : Fin n) : Finset (Fin n) :=
  Finset.univ.filter fun j => G.adj i j

/-- Ordered wedge count at a node: ordered pairs of distinct neighbours.
Each unordered wedge (two-path centred at `i`) is counted twice. -/
def wedgeOrd {n : ℕ} (G : FinGraph n) (i : Fin n) : ℕ :=
  (Finset.univ.filter fun p : Fin n × Fin n =>
    G.adj i p.1 ∧ G.adj i p.2 ∧ p.1 ≠ p.2).card

/-- Ordered triangle count at a node: ordered pairs of neighbours that are
themselves adjacent.  Each triangle through `i` is counted twice. -/
def triOrd {n : ℕ} (G : FinGraph n) (i : Fin n) : ℕ :=
  (Finset.univ.filter fun p : Fin n × Fin n =>
    G.adj i p.1 ∧ G.adj i p.2 ∧ G.adj p.1 p.2).card

/-- Modelled from the spec: per-node similarity coefficient of `PathCensus`
("fraction of a node's open wedges that are closed into triangles",
spec glossary); the denominator-zero case (degree < 2) is a non-finite
(NaN) value, modelled as `none` (spec §4.1 edge cases). -/
def simNode {n : ℕ} (G : FinGraph n) (i : Fin n) : Option ℚ :=
  if wedgeOrd G i = 0 then none
  else some ((triOrd G i : ℚ) / (wedgeOrd G i : ℚ))

/-- Modelled from the spec: global similarity of `PathCensus` — motif counts
are aggregated over the whole graph before taking the ratio (spec §4.1:
"Global granularity aggregates counts over the whole graph before forming
the ratio (not an average of per-node ratios)"). -/
def simGlobal {n : ℕ} (G : FinGraph n) : ℚ :=
  ((∑ i, triOrd G i : ℕ) : ℚ) / ((∑ i, wedgeOrd G i : ℕ) : ℚ)

/-- Strictly ordered vertex triples that are mutually adjacent: each
triangle of the graph appears exactly once. -/
def sortedTriSet {n : ℕ} (G : FinGraph n) : Finset (Fin n × Fin n × Fin n) :=
  Finset.univ.filter fun t : Fin n × Fin n × Fin n =>
    t.1 < t.2.1 ∧ t.2.1 < t.2.2 ∧
    G.adj t.1 t.2.1 ∧ G.adj t.1 t.2.2 ∧ G.adj t.2.1 t.2.2

/-- Brute-force triangle count: strictly ordered vertex triples that are
mutually adjacent, i.e. each triangle counted exactly once. -/
def bruteTriangles {n : ℕ} (G : FinGraph n) : ℕ :=
  (sortedTriSet G).card

/-- All ordered mutually-adjacent vertex triples; each triangle of the graph
appears 6 times (once per ordering of its vertices). -/
def triOrdSet {n : ℕ} (G : FinGraph n) : Finset (Fin n × Fin n × Fin n) :=
  Finset.univ.filter fun t : Fin n × Fin n × Fin n =>
    G.adj t.1 t.2.1 ∧ G.adj t.1 t.2.2 ∧ G.adj t.2.1 t.2.2

/-- Wedge count of the graph: number of two-paths, `∑ i C(dᵢ, 2)`. -/
def bruteWedges {n : ℕ} (G : FinGraph n) : ℕ :=
  ∑ i, (degree G i).choose 2

/-- Mean of the per-node similarity coefficients with NaN entries skipped
(as the pandas mean of a per-node coefficient column computes it). -/
def meanSimNode {n : ℕ} (G : FinGraph n) : ℚ :=
  (∑ i, if wedgeOrd G i = 0 then 0
    else (triOrd G i : ℚ) / (wedgeOrd G i : ℚ)) /
    ((Finset.univ.filter fun i => wedgeOrd G i ≠ 0).card : ℚ)

/-- The 5-cycle graph (used by spec §8 as a zero-similarity example). -/
def cycle5 : FinGraph 5 where
  adj i j := decide ((i.val + 1) % 5 = j.val ∨ (j.val + 1) % 5 = i.val)
  symm := by decide
  loopless := by decide

/-- The complete graph on `n` vertices. -/
def completeG (n : ℕ) : FinGraph n where
  adj i j := decide (i ≠ j)
  symm := by
    intro i j
    exact decide_eq_decide.mpr ne_comm
  loopless := by
    intro i
    simp

/-- A triangle `{0,1,2}` with a pendant vertex `3` attached to `0`: a graph
on which the global similarity and the mean per-node similarity differ. -/
def triPendant : FinGraph 4 where
  adj i j := decide ((i.val, j.val) ∈
    [(0, 1), (1, 0), (0, 2), (2, 0), (1, 2), (2, 1), (0, 3), (3, 0)])
  symm := by decide
  loopless := by decide

/-! ## UBCM model (C2)

Modelled from the spec: `pathcensus.nullmodels.UBCM` is an external
dependency.  Spec §4.2: `fit()` solves for per-node parameters θ with edge
probability `p_ij = 1/(1+exp(-(θ_i+θ_j)))` "or equivalent reparameterization";
we use the standard reparameterization `x_i = exp(θ_i) ≥ 0`, under which
`p_ij = x_i x_j / (1 + x_i x_j)` is rational in the parameters.
`validate()` "checks that the fitted model's expected degree sequence matches
the empirical one within tolerance". -/

/-- State of a fitted UBCM model: the observed degree sequence and the fitted
(reparameterized) parameter vector `x`, one nonnegative scalar per node
(spec §3, "UBCM model state"). -/
structure UBCM (n : ℕ) where
  deg : Fin n → ℕ
  x : Fin n → ℚ
  x_nonneg : ∀ i, 0 ≤ x i

/-- Modelled from the spec: UBCM edge probability
`p_ij = x_i x_j / (1 + x_i x_j)` (spec §4.2, reparameterized logistic
model; `fit()` itself is a numerical solver whose output is the vector `x`). -/
def pij {n : ℕ} (m : UBCM n) (i j : Fin n) : ℚ :=
  m.x i * m.x j / (1 + m.x i * m.x j)

/-- Modelled from the spec: the expected degree of node `i` implied by the
fitted parameters — the sum of edge probabilities to all other nodes. -/
def expected_degree {n : ℕ} (m : UBCM n) (i : Fin n) : ℚ :=
  ∑ j ∈ Finset.univ.erase i, pij m i j

/-- Modelled from the spec: `UBCM.validate()` — checks that the expected
degree sequence under the fitted parameters matches the observed degree
sequence within tolerance `tol` for every node, returning a Boolean verdict
(spec §4.2: "fails loudly (not silently) if fit quality is poor"). -/
def validate {n : ℕ} (m : UBCM n) (tol : ℚ) : Bool :=
  decide (∀ i, |expected_degree m i - (m.deg i : ℚ)| ≤ tol)

/-! ## Inference engine: p-value estimation and adjustment (C5)

Modelled from the spec: `pathcensus.inference.Inference.estimate_pvalues`
and `adjust_pvalues` are external.  Spec §4.3: `estimate_pvalues` computes
for each entity the empirical fraction of null samples at least as extreme
as the observed value, optionally corrected for multiple comparisons
(Benjamini–Hochberg); `adjust_pvalues` applies the same correction
independently from estimation. -/

/-- Modelled from the spec: raw (unadjusted) empirical p-value per entity —
the fraction of null samples whose value is at least as extreme as
(here: greater than or equal to) the observed value (spec §4.3). -/
def raw_pvalues {k : ℕ} (observed : Fin k → ℚ) (null : List (Fin k → ℚ))
    (e : Fin k) : ℚ :=
  ((null.countP fun s => decide (observed e ≤ s e) : ℕ) : ℚ) / (null.length : ℚ)

/-- Modelled from the spec: Benjamini–Hochberg adjusted p-values over the `k`
entities (spec §4.3 names Benjamini–Hochberg FDR control as the multiple-
testing correction).  The adjusted p-value of entity `e` is
`min 1 (min over entities f with p f ≥ p e of k * p f / rank f)` where
`rank f` is the number of entities with p-value at most `p f`. -/
def bh_adjust {k : ℕ} (p : Fin k → ℚ) (e : Fin k) : ℚ :=
  min 1 (((Finset.univ.filter fun f => p e ≤ p f).image fun f =>
    (k : ℚ) * p f / ((Finset.univ.filter fun g => p g ≤ p f).card : ℚ)).min'
      (by
        refine Finset.Nonempty.image ⟨e, ?_⟩ _
        simp))

/-- Modelled from the spec: `Inference.adjust_pvalues(pvals, alpha)` —
applies the multiple-testing correction to already-estimated p-values;
as with Benjamini–Hochberg, the corrected p-values themselves do not depend
on the significance level `alpha` (the level only enters the decision
`p ≤ alpha`), which is what makes them "usable at a different α without
recomputing the empirical distribution" (spec §4.3). -/
def adjust_pvalues {k : ℕ} (pvals : Fin k → ℚ) (_alpha : ℚ) : Fin k → ℚ :=
  fun e => bh_adjust pvals e

/-- Modelled from the spec: `Inference.estimate_pvalues(observed, null,
alpha, adjust)` — empirical p-values from the null ensemble, adjusted for
multiple comparisons when `adjust` is set (spec §4.3). -/
def estimate_pvalues {k : ℕ} (observed : Fin k → ℚ) (null : List (Fin k → ℚ))
    (adjust : Bool) (alpha : ℚ) : Fin k → ℚ :=
  if adjust then adjust_pvalues (raw_pvalues observed null) alpha
  else raw_pvalues observed null

/-! ## Calibrated effect sizes (C3)

Embeds the calibration code of the analysis scripts
(`analyses/3-proteins/prepare_data.py` lines 140–144,
`analyses/2-social/prepare_data.py` lines 105–109,
`analyses/1-domains/prepare_data.py` lines 67–74):

    cdata = np.log(data / null).replace([np.inf, -np.inf], np.nan)
              .dropna().mean()

Per entity, `data` holds the observed statistic and `null` one value per null
sample (spec §4.3: the null collection is indexed by sample id); `np.log` of
the per-sample ratio is non-finite exactly when the ratio is not strictly
positive (division by a zero null value gives `inf`, a zero or negative ratio
gives `-inf`/`nan`); those entries are replaced by `nan` and dropped, and the
remaining per-sample log-ratios are averaged.  An all-dropped column yields an
empty mean (`nan`), modelled as `none`. -/

/-- Arithmetic mean of a list of rationals (empty list gives `0/0 = 0`). -/
def listMean (l : List ℚ) : ℚ := l.sum / (l.length : ℚ)

/-- Per-sample log-ratios that survive the `replace`/`dropna` step: samples
whose ratio `obs / v` is strictly positive, mapped to `log (obs / v)`. -/
noncomputable def keptLogs (obs : ℚ) (null : List ℚ) : List ℝ :=
  (null.filter fun v => decide (0 < obs * v)).map fun v : ℚ =>
    Real.log ((obs : ℝ) / (v : ℝ))

/-- The calibrated effect size per entity as computed by the scripts: the
mean of the finite per-sample log-ratios, `none` when every sample was
dropped. -/
noncomputable def cdata (obs : ℚ) (null : List ℚ) : Option ℝ :=
  if keptLogs obs null = [] then none
  else some ((keptLogs obs null).sum / ((keptLogs obs null).length : ℝ))

/-- The calibrated effect size as the claim states it: the logarithm of the
observed value divided by the (arithmetic) mean of the null values. -/
noncomputable def cdataClaim (obs : ℚ) (null : List ℚ) : ℝ :=
  Real.log ((obs : ℝ) / ((listMean null : ℚ) : ℝ))

/-! ## Pipeline sampling discipline (C4)

Embeds the order of null-model operations in each analysis script as an
event trace.  In every script the calls appear in straight line inside the
per-network loop; `Inference.init_comparison` is the call that draws the
null samples (spec §4.3), and `UBCM.sample_one` draws a single sample.

* `analyses/1-domains/prepare_data.py` (`make_data`, lines 53–59):
  `model.fit()`, `model.validate()`, `infer.init_comparison(...)`.
* `analyses/2-social/prepare_data.py` (lines 81–85): same order.
* `analyses/3-proteins/prepare_data.py` (lines 98–103): same order.
* `analyses/5-performance/prepare_data.py` (lines 84–86):
  `model = UBCM(graph).fit()` then `rand = model.sample_one()` —
  **no** `validate()` call. -/

/-- Null-model events appearing in an analysis pipeline. -/
inductive PipelineEvent where
  | fitEv
  | validateEv
  | sampleEv
  deriving DecidableEq

/-- Event trace of one loop iteration of `analyses/1-domains/prepare_data.py`. -/
def domains_trace : List PipelineEvent :=
  [.fitEv, .validateEv, .sampleEv]

/-- Event trace of one loop iteration of `analyses/2-social/prepare_data.py`. -/
def social_trace : List PipelineEvent :=
  [.fitEv, .validateEv, .sampleEv]

/-- Event trace of one loop iteration of `analyses/3-proteins/prepare_data.py`. -/
def proteins_trace : List PipelineEvent :=
  [.fitEv, .validateEv, .sampleEv]

/-- Event trace of one loop iteration of
`analyses/5-performance/prepare_data.py`: the model is fitted and sampled,
with no validation in between. -/
def performance_trace : List PipelineEvent :=
  [.fitEv, .sampleEv]

/-- Scans a trace carrying "fit seen" / "validate seen" flags and checks that
every sampling event is preceded by both a fit and a validation. -/
def samples_validated_aux (sf sv : Bool) : List PipelineEvent → Bool
  | [] => true
  | .fitEv :: rest => samples_validated_aux true sv rest
  | .validateEv :: rest => samples_validated_aux sf true rest
  | .sampleEv :: rest => sf && sv && samples_validated_aux sf sv rest

/-- Every sampling event in the trace is preceded by both a successful fit
and a successful validation. -/
def samples_validated (tr : List PipelineEvent) : Bool :=
  samples_validated_aux false false tr

/-- Scans a trace carrying a "fit seen" flag and checks that every sampling
event is preceded by a fit. -/
def samples_fitted_aux (sf : Bool) : List PipelineEvent → Bool
  | [] => true
  | .fitEv :: rest => samples_fitted_aux true rest
  | .validateEv :: rest => samples_fitted_aux sf rest
  | .sampleEv :: rest => sf && samples_fitted_aux sf rest

/-- Every sampling event in the trace is preceded by a successful fit. -/
def samples_fitted (tr : List PipelineEvent) : Bool :=
  samples_fitted_aux false tr

/-! ## Seeded sampling determinism (C7)

Modelled from the spec: the random number generator, `set_seed` and
`UBCM.sample_one` live in the external `pathcensus` package
(`pathcensus.utils.set_seed` is called by the scripts, e.g.
`analyses/1-domains/prepare_data.py` lines 129–130).  Spec §4.2:
sampling "draws a random simple graph by independently including edge (i,j)
with probability p_ij for every unordered pair", and is "reproducible given
an explicit seed; seed must be settable process-wide … with the contract
that re-running with the same seed and same model reproduces the same sample
sequence".  The generator is modelled as a concrete linear congruential
generator held in a process-wide state; the state also carries a draw
counter standing for whatever other process state exists, so that
determinism ("the output depends only on the seed and the model") is not a
bare reflexivity. -/

/-- Process-wide random state: the generator word plus a count of draws made
so far (the latter standing in for unrelated process state). -/
structure RandState where
  word : ℕ
  draws : ℕ

/-- One step of a linear congruential generator (Numerical Recipes
constants, modulus `2^32`). -/
def lcg_step (s : ℕ) : ℕ :=
  (1664525 * s + 1013904223) % 4294967296

/-- Modelled from the spec: `set_seed(seed)` — resets the process-wide
generator word from the given seed (spec §4.2, "seed must be settable
process-wide"). -/
def set_seed (seed : ℕ) (st : RandState) : RandState :=
  { word := seed % 4294967296, draws := st.draws }

/-- Draw a uniform variate in `[0,1)` (as a rational) and advance the
generator. -/
def draw_unit (st : RandState) : ℚ × RandState :=
  (((st.word % 1048576 : ℕ) : ℚ) / 1048576,
   { word := lcg_step st.word, draws := st.draws + 1 })

/-- All unordered vertex pairs `i < j` of `Fin n`, in a fixed order. -/
def all_pairs (n : ℕ) : List (Fin n × Fin n) :=
  (List.finRange n).flatMap fun i =>
    ((List.finRange n).filter fun j => decide (i < j)).map fun j => (i, j)

/-- Modelled from the spec: Bernoulli edge draws over a list of vertex
pairs — pair `(i,j)` is kept as an edge when the drawn variate falls below
`p_ij` (spec §4.2). -/
def sample_edges {n : ℕ} (m : UBCM n) :
    List (Fin n × Fin n) → RandState → List (Fin n × Fin n) × RandState
  | [], st => ([], st)
  | p :: rest, st =>
    let u := (draw_unit st).1
    let res := sample_edges m rest (draw_unit st).2
    (if u < pij m p.1 p.2 then p :: res.1 else res.1, res.2)

/-- Modelled from the spec: `UBCM.sample_one()` — draws one random simple
graph (as its edge list) by independent Bernoulli draws over all unordered
vertex pairs, advancing the process-wide random state. -/
def sample_one {n : ℕ} (m : UBCM n) (st : RandState) :
    List (Fin n × Fin n) × RandState :=
  sample_edges m (all_pairs n) st

/-- Draw `k` successive samples from the model, threading the process-wide
random state; returns the sample sequence. -/
def sample_seq {n : ℕ} (m : UBCM n) :
    ℕ → RandState → List (List (Fin n × Fin n)) × RandState
  | 0, st => ([], st)
  | k + 1, st =>
    let g := (sample_one m st).1
    let res := sample_seq m k (sample_one m st).2
    (g :: res.1, res.2)

/-! ## Graph preprocessing (C8)

Embeds `src/utils.py`: `preprocess_graph` (lines 103–145) with its default
arguments copies the graph, calls `igraph.Graph.simplify()` (removes
self-loops and collapses duplicate edges), `igraph.Graph.to_undirected()`
(default "collapse" mode: one undirected edge per connected vertex pair) and
`get_largest_component` (lines 92–101: iterates over
`igraph.Graph.components()` keeping the first component of maximal size,
then takes `induced_subgraph`).  Graphs are embedded as edge-list
multigraphs; the igraph operations (external library) are modelled by their
documented semantics.  The `graph.copy()` on line 137 is what makes the
original argument unmodified; the embedding is correspondingly a pure
function of its input. -/

/-- A raw graph as loaded from disk: vertex count, directedness flag, and a
list of edges (possibly with self-loops and duplicates). -/
structure MGraph where
  n : ℕ
  directed : Bool
  edges : List (ℕ × ℕ)

/-- Canonical orientation of an undirected edge: smaller endpoint first. -/
def normEdge (e : ℕ × ℕ) : ℕ × ℕ :=
  if e.1 ≤ e.2 then e else (e.2, e.1)

/-- Model of `igraph.Graph.simplify()`: removes self-loops and collapses
duplicate edges (for an undirected graph, duplication is up to edge
orientation; for a directed graph, opposite orientations are distinct
edges). -/
def simplifyG (g : MGraph) : MGraph :=
  { g with
    edges :=
      (((if g.directed then g.edges else g.edges.map normEdge).filter
        fun e => e.1 ≠ e.2)).dedup }

/-- Model of `igraph.Graph.to_undirected()` in its default "collapse" mode:
drops directions and keeps a single edge per connected vertex pair; a no-op
on an already-undirected graph. -/
def toUndirected (g : MGraph) : MGraph :=
  if g.directed then
    { n := g.n, directed := false, edges := (g.edges.map normEdge).dedup }
  else g

/-- Undirected adjacency test on the edge list. -/
def adjacentM (g : MGraph) (u v : ℕ) : Bool :=
  g.edges.any fun e => (e.1 = u ∧ e.2 = v) ∨ (e.1 = v ∧ e.2 = u)

/-- One breadth-first expansion step: all vertices already in `s` or
adjacent to a vertex of `s`, listed in ascending vertex order. -/
def reachStep (g : MGraph) (s : List ℕ) : List ℕ :=
  (List.range g.n).filter fun v => s.contains v || s.any fun u => adjacentM g u v

/-- Vertices connected to `v`: `n` breadth-first expansion steps from
`[v]` (enough to exhaust any path in a graph on `n` vertices), in ascending
vertex order. -/
def reach (g : MGraph) (v : ℕ) : List ℕ :=
  (reachStep g)^[g.n] [v]

/-- One step of the component scan: skip a vertex already covered by a
component, otherwise append its reachable set as a new component. -/
def compStep (g : MGraph) (acc : List (List ℕ)) (v : ℕ) : List (List ℕ) :=
  if acc.any fun c => c.contains v then acc else acc ++ [reach g v]

/-- Model of `igraph.Graph.components()` on an undirected graph: scan the
vertices in order and start a new component (its reachable set) at every
vertex not already covered. -/
def componentsM (g : MGraph) : List (List ℕ) :=
  (List.range g.n).foldl (compStep g) []

/-- One iteration of the `get_largest_component` loop: replace the current
best component when the new one is strictly larger. -/
def pickStep (best : Option (List ℕ)) (c : List ℕ) : Option (List ℕ) :=
  match best with
  | none => some c
  | some b => if b.length < c.length then some c else some b

/-- The loop of `get_largest_component` (`src/utils.py` lines 97–100):
`vids = None; for c in components: if vids is None or len(c) > len(vids):
vids = c`.  Keeps the first component of maximal size. -/
def pickLargest (comps : List (List ℕ)) : Option (List ℕ) :=
  comps.foldl pickStep none

/-- Model of `igraph.Graph.induced_subgraph(vids)`: keeps the vertices of
`vids` (renumbered by their position in `vids`) and the edges with both
endpoints in `vids`. -/
def inducedSubgraph (g : MGraph) (vids : List ℕ) : MGraph :=
  { n := vids.length
    directed := g.directed
    edges :=
      (g.edges.filter fun e => vids.contains e.1 && vids.contains e.2).map
        fun e => (vids.indexOf e.1, vids.indexOf e.2) }

/-- `src/utils.py` `get_largest_component` (lines 92–101): induced subgraph
on the first largest component (the empty vertex list when there are no
components, i.e. on the empty graph). -/
def get_largest_component (g : MGraph) : MGraph :=
  match pickLargest (componentsM g) with
  | some vids => inducedSubgraph g vids
  | none => inducedSubgraph g []

/-- `src/utils.py` `preprocess_graph` (lines 103–145) with default
arguments: simplify, make undirected, take the largest connected
component. -/
def preprocess_graph (g : MGraph) : MGraph :=
  get_largest_component (toUndirected (simplifyG g))

/-! ## Netzschleuder cache (C9)

Embeds `src/_ns.py` `Netzschleuder.fetch` (lines 95–131).  The on-disk cache
directory is modelled as an association list from file names to graphs, and
`download` (a network operation, lines 67–93) as an oracle function from
network names to graphs.  Fetch results are reported as
`(graph, cache-after, downloaded?)`. -/

/-- The on-disk cache directory: file names mapped to stored graphs. -/
structure NSCache (G : Type) where
  files : List (String × G)

/-- Argument resolution of `fetch`: `force = force if force is not None else
self.force` (lines 121–122). -/
def resolveForce (selfForce : Bool) (force : Option Bool) : Bool :=
  force.getD selfForce

/-- Argument resolution of `fetch`: `network = network or self.name`
(line 124). -/
def resolveNetwork (selfName : String) (network : Option String) : String :=
  match network with
  | some s => if s = "" then selfName else s
  | none => selfName

/-- Argument resolution of `fetch`: `alias = alias if alias else network`
(line 125); `None` and the empty string both fall back to the network
name. -/
def resolveAlias (network : String) (aliasArg : Option String) : String :=
  match aliasArg with
  | some a => if a = "" then network else a
  | none => network

/-- Cache file name of `fetch`: `f"{self.name}__{alias}.pkl.gz"`
(line 126). -/
def cachePath (selfName aliasName : String) : String :=
  selfName ++ "__" ++ aliasName ++ ".pkl.gz"

/-- `Netzschleuder.fetch` (lines 95–131): if `force` is set or the cache
file is absent, download the network, write it to the cache file and return
it; otherwise read and return the cached graph.  The Boolean records
whether a download was performed. -/
def fetch {G : Type} (dl : String → G) (selfName : String) (selfForce : Bool)
    (network aliasArg : Option String) (force : Option Bool) (st : NSCache G) :
    G × NSCache G × Bool :=
  let f := resolveForce selfForce force
  let net := resolveNetwork selfName network
  let al := resolveAlias net aliasArg
  let fpath := cachePath selfName al
  if f then
    let g := dl net
    (g, ⟨(fpath, g) :: st.files⟩, true)
  else
    match st.files.lookup fpath with
    | some gc => (gc, st, false)
    | none =>
      let g := dl net
      (g, ⟨(fpath, g) :: st.files⟩, true)

/-! ## Significance categories (C10)

Embeds `analyses/3-proteins/prepare_data.py` lines 118–126: per node,
`sig["sim"]`/`sig["comp"]` are Booleans (`pv ≤ alpha`), and

    sig["both"]    =  sig.all(axis=1)
    sig["sim"]    &= ~sig["both"]
    sig["comp"]   &= ~sig["both"]
    sig["neither"] = 1 - sig[["sim", "comp", "both"]].sum(axis=1)
    sig = sig.mean().to_frame().T
-/

/-- Indicator value of a Boolean, as used by the pandas arithmetic. -/
def b2i (b : Bool) : ℤ := if b then 1 else 0

/-- The `both` column: significant in both similarity and complementarity. -/
def sigBoth (s c : Bool) : ℤ := b2i (s && c)

/-- The updated `sim` column: similarity-only significance. -/
def sigSimOnly (s c : Bool) : ℤ := b2i (s && !(s && c))

/-- The updated `comp` column: complementarity-only significance. -/
def sigCompOnly (s c : Bool) : ℤ := b2i (c && !(s && c))

/-- The `neither` column: `1 - (sim + comp + both)` after the updates. -/
def sigNeither (s c : Bool) : ℤ :=
  1 - (sigSimOnly s c + sigCompOnly s c + sigBoth s c)

/-- Fraction of nodes (pairs of Booleans `(sim, comp)`) in a category, as
computed by `sig.mean()`. -/
def sigFrac (f : Bool → Bool → ℤ) (l : List (Bool × Bool)) : ℚ :=
  ((l.map fun sc => f sc.1 sc.2).sum : ℚ) / (l.length : ℚ)

/-! ## Concrete fixtures used by witness theorems -/

/-- A fitted UBCM model on two nodes with observed degrees `1` and unit
parameters, giving edge probability `1/2`. -/
def ubcmW : UBCM 2 where
  deg := fun _ => 1
  x := fun _ => 1
  x_nonneg := fun _ => zero_le_one

/-- A cache directory holding one file, mapped to graph id `3`. -/
def cacheW : NSCache ℕ := ⟨[("ds__net.pkl.gz", 3)]⟩

/-- A download oracle returning graph id `7` for every network name. -/
def dlW : String → ℕ := fun _ => 7

/-! ## Lemmas on the PathCensus model -/

theorem adj_ne {n : ℕ} (G : FinGraph n) {i j : Fin n} (h : G.adj i j = true) :
    i ≠ j := by
  intro heq
  subst heq
  rw [G.loopless i] at h
  exact Bool.false_ne_true h

theorem wedgeOrd_eq_offDiag {n : ℕ} (G : FinGraph n) (i : Fin n) :
    (Finset.univ.filter fun p : Fin n × Fin n =>
      G.adj i p.1 ∧ G.adj i p.2 ∧ p.1 ≠ p.2) = (nbhd G i).offDiag := by
  ext p
  simp only [Finset.mem_filter, Finset.mem_univ, true_and, Finset.mem_offDiag,
    nbhd]

theorem wedgeOrd_eq {n : ℕ} (G : FinGraph n) (i : Fin n) :
    wedgeOrd G i = degree G i * degree G i - degree G i := by
  rw [wedgeOrd, wedgeOrd_eq_offDiag, Finset.offDiag_card]
  rfl

theorem triOrd_le_wedgeOrd {n : ℕ} (G : FinGraph n) (i : Fin n) :
    triOrd G i ≤ wedgeOrd G i := by
  apply Finset.card_le_card
  intro p hp
  simp only [Finset.mem_filter, Finset.mem_univ, true_and] at hp ⊢
  exact ⟨hp.1, hp.2.1, adj_ne G hp.2.2⟩

theorem wedgeOrd_pos {n : ℕ} (G : FinGraph n) (i : Fin n)
    (h : 2 ≤ degree G i) : 0 < wedgeOrd G i := by
  rw [wedgeOrd_eq]
  have h1 : degree G i < degree G i * 2 := by omega
  have h2 : degree G i * 2 ≤ degree G i * degree G i :=
    Nat.mul_le_mul_left _ h
  omega

theorem wedgeOrd_eq_zero {n : ℕ} (G : FinGraph n) (i : Fin n)
    (h : degree G i < 2) : wedgeOrd G i = 0 := by
  rw [wedgeOrd_eq]
  interval_cases h : degree G i <;> simp

/-- C1: for every simple undirected graph, the PathCensus per-node
similarity coefficient of a node of degree at least 2 is a finite value in
the closed interval `[0,1]`, while a node of degree less than 2 gets the
non-finite (NaN) marker `none`; in both cases the (total) computation
returns without error. -/
theorem C1_per_node_similarity {n : ℕ} (G : FinGraph n) (i : Fin n) :
    (2 ≤ degree G i → ∃ q : ℚ, simNode G i = some q ∧ 0 ≤ q ∧ q ≤ 1) ∧
    (degree G i < 2 → simNode G i = none) := by
  constructor
  · intro h
    have hw : 0 < wedgeOrd G i := wedgeOrd_pos G i h
    refine ⟨(triOrd G i : ℚ) / (wedgeOrd G i : ℚ), ?_, ?_, ?_⟩
    · rw [simNode, if_neg (by omega)]
    · positivity
    · rw [div_le_one (by exact_mod_cast hw)]
      exact_mod_cast triOrd_le_wedgeOrd G i
  · intro h
    rw [simNode, if_pos (wedgeOrd_eq_zero G i h)]

/-- Witness for C1: in the triangle `K₃` the vertex `0` has degree 2 and a
similarity coefficient in `[0,1]`; in the one-vertex graph the vertex `0`
has degree 0 and similarity NaN. -/
theorem C1_per_node_similarity_witness :
    (2 ≤ degree (completeG 3) 0 ∧
      ∃ q : ℚ, simNode (completeG 3) 0 = some q ∧ 0 ≤ q ∧ q ≤ 1) ∧
    (degree (completeG 1) 0 < 2 ∧ simNode (completeG 1) 0 = none) :=
  ⟨⟨by decide, (C1_per_node_similarity (completeG 3) 0).1 (by decide)⟩,
   ⟨by decide, (C1_per_node_similarity (completeG 1) 0).2 (by decide)⟩⟩

/-! ## Lemmas for the global similarity (C6)

The global similarity is a ratio of ordered motif counts; relating it to the
brute-force triangle and wedge counts requires the double/sextuple counting
identities `∑ i wedgeOrdᵢ = 2·(wedge count)` and
`∑ i triOrdᵢ = 6·(triangle count)`. -/

theorem mem_triOrdSet {n : ℕ} (G : FinGraph n) (t : Fin n × Fin n × Fin n) :
    t ∈ triOrdSet G ↔
      (G.adj t.1 t.2.1 ∧ G.adj t.1 t.2.2 ∧ G.adj t.2.1 t.2.2) := by
  simp [triOrdSet]

theorem mem_sortedTriSet {n : ℕ} (G : FinGraph n) (t : Fin n × Fin n × Fin n) :
    t ∈ sortedTriSet G ↔
      (t.1 < t.2.1 ∧ t.2.1 < t.2.2 ∧
        G.adj t.1 t.2.1 ∧ G.adj t.1 t.2.2 ∧ G.adj t.2.1 t.2.2) := by
  simp [sortedTriSet]

theorem card_split_lt {α β : Type*} [LinearOrder β] (s : Finset α)
    (f g : α → β) (hne : ∀ a ∈ s, f a ≠ g a) :
    s.card = (s.filter fun a => f a < g a).card +
      (s.filter fun a => g a < f a).card := by
  rw [← Finset.filter_card_add_filter_neg_card_eq_card
    (s := s) (p := fun a => f a < g a)]
  congr 1
  refine congrArg Finset.card (Finset.filter_congr ?_)
  intro a ha
  constructor
  · intro h
    exact lt_of_le_of_ne (not_lt.mp h) fun e => hne a ha e.symm
  · intro h
    exact not_lt.mpr h.le

theorem sum_triOrd_eq_card {n : ℕ} (G : FinGraph n) :
    ∑ i, triOrd G i = (triOrdSet G).card := by
  rw [Finset.card_eq_sum_card_fiberwise
    (f := fun t : Fin n × Fin n × Fin n => t.1) (t := Finset.univ)
    (fun t _ => Finset.mem_univ t.1)]
  refine Finset.sum_congr rfl fun i _ => ?_
  rw [triOrd]
  apply Finset.card_nbij' (fun p : Fin n × Fin n => (i, p))
    (fun t : Fin n × Fin n × Fin n => t.2)
  · intro p hp
    simp only [Finset.mem_filter, Finset.mem_univ, true_and] at hp ⊢
    rw [mem_triOrdSet]
    exact ⟨⟨hp.1, hp.2.1, hp.2.2⟩, trivial⟩
  · intro t ht
    simp only [Finset.mem_filter, Finset.mem_univ, true_and,
      mem_triOrdSet] at ht ⊢
    obtain ⟨⟨h1, h2, h3⟩, h4⟩ := ht
    subst h4
    exact ⟨h1, h2, h3⟩
  · intro p _
    rfl
  · intro t ht
    simp only [Finset.mem_filter, mem_triOrdSet] at ht
    obtain ⟨-, h4⟩ := ht
    rw [← h4]

theorem leaf_xyz {n : ℕ} (G : FinGraph n) :
    ((triOrdSet G).filter fun t => t.1 < t.2.1 ∧ t.2.1 < t.2.2).card =
      bruteTriangles G := by
  rw [bruteTriangles]
  refine congrArg Finset.card (Finset.ext fun t => ?_)
  rw [Finset.mem_filter, mem_triOrdSet, mem_sortedTriSet]
  tauto

theorem leaf_xzy {n : ℕ} (G : FinGraph n) :
    ((triOrdSet G).filter fun t =>
      (t.1 < t.2.1 ∧ t.2.2 < t.2.1) ∧ t.1 < t.2.2).card = bruteTriangles G := by
  rw [bruteTriangles]
  apply Finset.card_nbij' (fun t : Fin n × Fin n × Fin n => (t.1, t.2.2, t.2.1))
    (fun s : Fin n × Fin n × Fin n => (s.1, s.2.2, s.2.1))
  · intro t ht
    rw [Finset.mem_filter, mem_triOrdSet] at ht
    obtain ⟨⟨a1, a2, a3⟩, ⟨-, h2⟩, h3⟩ := ht
    rw [mem_sortedTriSet]
    exact ⟨h3, h2, a2, a1, (G.symm _ _).trans a3⟩
  · intro s hs
    rw [mem_sortedTriSet] at hs
    obtain ⟨hb1, hb2, b3, b4, b5⟩ := hs
    rw [Finset.mem_filter, mem_triOrdSet]
    exact ⟨⟨b4, b3, (G.symm _ _).trans b5⟩, ⟨hb1.trans hb2, hb2⟩, hb1⟩
  · intro t _
    rfl
  · intro s _
    rfl

theorem leaf_zxy {n : ℕ} (G : FinGraph n) :
    ((triOrdSet G).filter fun t =>
      (t.1 < t.2.1 ∧ t.2.2 < t.2.1) ∧ t.2.2 < t.1).card = bruteTriangles G := by
  rw [bruteTriangles]
  apply Finset.card_nbij' (fun t : Fin n × Fin n × Fin n => (t.2.2, t.1, t.2.1))
    (fun s : Fin n × Fin n × Fin n => (s.2.1, s.2.2, s.1))
  · intro t ht
    rw [Finset.mem_filter, mem_triOrdSet] at ht
    obtain ⟨⟨a1, a2, a3⟩, ⟨h1, -⟩, h3⟩ := ht
    rw [mem_sortedTriSet]
    exact ⟨h3, h1, (G.symm _ _).trans a2, (G.symm _ _).trans a3, a1⟩
  · intro s hs
    rw [mem_sortedTriSet] at hs
    obtain ⟨hb1, hb2, b3, b4, b5⟩ := hs
    rw [Finset.mem_filter, mem_triOrdSet]
    exact ⟨⟨b5, (G.symm _ _).trans b3, (G.symm _ _).trans b4⟩,
      ⟨hb2, hb1.trans hb2⟩, hb1⟩
  · intro t _
    rfl
  · intro s _
    rfl

theorem leaf_yxz {n : ℕ} (G : FinGraph n) :
    ((triOrdSet G).filter fun t => t.2.1 < t.1 ∧ t.1 < t.2.2).card =
      bruteTriangles G := by
  rw [bruteTriangles]
  apply Finset.card_nbij' (fun t : Fin n × Fin n × Fin n => (t.2.1, t.1, t.2.2))
    (fun s : Fin n × Fin n × Fin n => (s.2.1, s.1, s.2.2))
  · intro t ht
    rw [Finset.mem_filter, mem_triOrdSet] at ht
    obtain ⟨⟨a1, a2, a3⟩, h1, h2⟩ := ht
    rw [mem_sortedTriSet]
    exact ⟨h1, h2, (G.symm _ _).trans a1, a3, a2⟩
  · intro s hs
    rw [mem_sortedTriSet] at hs
    obtain ⟨hb1, hb2, b3, b4, b5⟩ := hs
    rw [Finset.mem_filter, mem_triOrdSet]
    exact ⟨⟨(G.symm _ _).trans b3, b5, b4⟩, hb1, hb2⟩
  · intro t _
    rfl
  · intro s _
    rfl

theorem leaf_yzx {n : ℕ} (G : FinGraph n) :
    ((triOrdSet G).filter fun t =>
      (t.2.1 < t.1 ∧ t.2.2 < t.1) ∧ t.2.1 < t.2.2).card = bruteTriangles G := by
  rw [bruteTriangles]
  apply Finset.card_nbij' (fun t : Fin n × Fin n × Fin n => (t.2.1, t.2.2, t.1))
    (fun s : Fin n × Fin n × Fin n => (s.2.2, s.1, s.2.1))
  · intro t ht
    rw [Finset.mem_filter, mem_triOrdSet] at ht
    obtain ⟨⟨a1, a2, a3⟩, ⟨-, h2⟩, h3⟩ := ht
    rw [mem_sortedTriSet]
    exact ⟨h3, h2, a3, (G.symm _ _).trans a1, (G.symm _ _).trans a2⟩
  · intro s hs
    rw [mem_sortedTriSet] at hs
    obtain ⟨hb1, hb2, b3, b4, b5⟩ := hs
    rw [Finset.mem_filter, mem_triOrdSet]
    exact ⟨⟨(G.symm _ _).trans b4, (G.symm _ _).trans b5, b3⟩,
      ⟨hb1.trans hb2, hb2⟩, hb1⟩
  · intro t _
    rfl
  · intro s _
    rfl

theorem leaf_zyx {n : ℕ} (G : FinGraph n) :
    ((triOrdSet G).filter fun t =>
      (t.2.1 < t.1 ∧ t.2.2 < t.1) ∧ t.2.2 < t.2.1).card = bruteTriangles G := by
  rw [bruteTriangles]
  apply Finset.card_nbij' (fun t : Fin n × Fin n × Fin n => (t.2.2, t.2.1, t.1))
    (fun s : Fin n × Fin n × Fin n => (s.2.2, s.2.1, s.1))
  · intro t ht
    rw [Finset.mem_filter, mem_triOrdSet] at ht
    obtain ⟨⟨a1, a2, a3⟩, ⟨h1, -⟩, h3⟩ := ht
    rw [mem_sortedTriSet]
    exact ⟨h3, h1, (G.symm _ _).trans a3, (G.symm _ _).trans a2,
      (G.symm _ _).trans a1⟩
  · intro s hs
    rw [mem_sortedTriSet] at hs
    obtain ⟨hb1, hb2, b3, b4, b5⟩ := hs
    rw [Finset.mem_filter, mem_triOrdSet]
    exact ⟨⟨(G.symm _ _).trans b5, (G.symm _ _).trans b4,
      (G.symm _ _).trans b3⟩, ⟨hb2, hb1.trans hb2⟩, hb1⟩
  · intro t _
    rfl
  · intro s _
    rfl

theorem card_triOrdSet_eq {n : ℕ} (G : FinGraph n) :
    (triOrdSet G).card = 6 * bruteTriangles G := by
  have hxy : ∀ t ∈ triOrdSet G, t.1 ≠ t.2.1 := fun t ht =>
    adj_ne G ((mem_triOrdSet G t).mp ht).1
  have hxz : ∀ t ∈ triOrdSet G, t.1 ≠ t.2.2 := fun t ht =>
    adj_ne G ((mem_triOrdSet G t).mp ht).2.1
  have hyz : ∀ t ∈ triOrdSet G, t.2.1 ≠ t.2.2 := fun t ht =>
    adj_ne G ((mem_triOrdSet G t).mp ht).2.2
  have h1 := card_split_lt (triOrdSet G)
    (fun t => t.1) (fun t => t.2.1) hxy
  have h2 := card_split_lt ((triOrdSet G).filter fun t => t.1 < t.2.1)
    (fun t => t.2.1) (fun t => t.2.2)
    (fun t ht => hyz t (Finset.mem_of_mem_filter t ht))
  have h3 := card_split_lt ((triOrdSet G).filter fun t =>
      t.1 < t.2.1 ∧ t.2.2 < t.2.1)
    (fun t => t.1) (fun t => t.2.2)
    (fun t ht => hxz t (Finset.mem_of_mem_filter t ht))
  have h4 := card_split_lt ((triOrdSet G).filter fun t => t.2.1 < t.1)
    (fun t => t.1) (fun t => t.2.2)
    (fun t ht => hxz t (Finset.mem_of_mem_filter t ht))
  have h5 := card_split_lt ((triOrdSet G).filter fun t =>
      t.2.1 < t.1 ∧ t.2.2 < t.1)
    (fun t => t.2.1) (fun t => t.2.2)
    (fun t ht => hyz t (Finset.mem_of_mem_filter t ht))
  simp only [Finset.filter_filter] at h1 h2 h3 h4 h5
  rw [leaf_xyz] at h2
  rw [leaf_xzy, leaf_zxy] at h3
  rw [leaf_yxz] at h4
  rw [leaf_yzx, leaf_zyx] at h5
  omega

theorem two_mul_choose_two (d : ℕ) : 2 * d.choose 2 = d * d - d := by
  rw [Nat.choose_two_right]
  have hdvd : 2 ∣ d * (d - 1) := by
    rcases d with _ | m
    · simp
    · rw [Nat.succ_sub_one, Nat.mul_comm]
      exact (Nat.even_mul_succ_self m).two_dvd
  rw [Nat.mul_div_cancel' hdvd]
  rcases d with _ | m
  · rfl
  · rw [Nat.succ_sub_one]
    have h : (m + 1) * (m + 1) = (m + 1) * m + (m + 1) := by ring
    rw [h, Nat.add_sub_cancel]

theorem sum_wedgeOrd_eq {n : ℕ} (G : FinGraph n) :
    ∑ i, wedgeOrd G i = 2 * bruteWedges G := by
  rw [bruteWedges, Finset.mul_sum]
  refine Finset.sum_congr rfl fun i _ => ?_
  rw [wedgeOrd_eq, two_mul_choose_two]

theorem degree_completeG (n : ℕ) (i : Fin n) :
    degree (completeG n) i = n - 1 := by
  rw [degree]
  have h : (Finset.univ.filter fun j => (completeG n).adj i j) =
      Finset.univ.erase i := by
    ext j
    simp [completeG, Finset.mem_erase, ne_comm]
  rw [h, Finset.card_erase_of_mem (Finset.mem_univ i), Finset.card_univ,
    Fintype.card_fin]

theorem triOrd_completeG (n : ℕ) (i : Fin n) :
    triOrd (completeG n) i = wedgeOrd (completeG n) i := by
  rw [triOrd, wedgeOrd]
  refine congrArg Finset.card (Finset.filter_congr fun p _ => ?_)
  have hadj : ∀ a b : Fin n, (completeG n).adj a b = true ↔ a ≠ b := by
    intro a b
    simp [completeG]
  constructor
  · rintro ⟨u1, u2, u3⟩
    exact ⟨u1, u2, (hadj _ _).mp u3⟩
  · rintro ⟨u1, u2, u3⟩
    exact ⟨u1, u2, (hadj _ _).mpr u3⟩

/-! ## C2: validated UBCM fits reproduce the degree sequence -/

/-- C2: whenever `validate()` passes on a fitted UBCM model, the expected
degree sequence implied by the fitted parameter vector matches the observed
degree sequence within the stated tolerance at every node; moreover every
`p_ij` implied by the parameters is a genuine probability in `[0,1]`. -/
theorem C2_validate_degrees {n : ℕ} (m : UBCM n) (tol : ℚ)
    (h : validate m tol = true) :
    (∀ i, |expected_degree m i - (m.deg i : ℚ)| ≤ tol) ∧
    (∀ i j, 0 ≤ pij m i j ∧ pij m i j ≤ 1) := by
  constructor
  · exact of_decide_eq_true h
  · intro i j
    have hx : 0 ≤ m.x i * m.x j := mul_nonneg (m.x_nonneg i) (m.x_nonneg j)
    have hd : (0 : ℚ) < 1 + m.x i * m.x j := by linarith
    constructor
    · exact div_nonneg hx (le_of_lt hd)
    · rw [pij, div_le_one hd]
      linarith

/-- Witness for C2: the two-node unit-parameter model validates at
tolerance 1, so its expected degrees are within 1 of the observed degrees
and its edge probabilities are in `[0,1]`. -/
theorem C2_validate_degrees_witness :
    validate ubcmW 1 = true ∧
    ((∀ i, |expected_degree ubcmW i - (ubcmW.deg i : ℚ)| ≤ 1) ∧
      (∀ i j, 0 ≤ pij ubcmW i j ∧ pij ubcmW i j ≤ 1)) := by
  have hv : validate ubcmW 1 = true := by
    rw [validate, decide_eq_true_eq]
    intro i
    fin_cases i <;> simp [expected_degree, pij, ubcmW, abs_le] <;> norm_num
  exact ⟨hv, C2_validate_degrees ubcmW 1 hv⟩

/-! ## C4: sampling discipline of the pipelines -/

/-- C4 counterexample: the claim "in every analysis pipeline, every call
that samples from the model is preceded by both a successful fit and a
successful validation" fails on the performance pipeline
(`analyses/5-performance/prepare_data.py`), whose trace fits and then
samples without validating. -/
theorem C4_counterexample :
    samples_validated performance_trace = false := by decide

/-- C4 (amended): in the domains, social and proteins analysis pipelines
every null-model sampling call is preceded by both a successful fit and a
successful validation of the model; in the performance pipeline sampling is
preceded by a successful fit but by no validation. -/
theorem C4_sampling_discipline :
    samples_validated domains_trace = true ∧
    samples_validated social_trace = true ∧
    samples_validated proteins_trace = true ∧
    samples_fitted performance_trace = true ∧
    samples_validated performance_trace = false := by decide

/-! ## C5: p-value adjustment decomposes -/

/-- C5: estimating raw p-values (`adjust=False`) and then applying
`adjust_pvalues` at level `alpha` yields exactly the corrected p-values that
estimation with adjustment enabled at `alpha` produces; the raw estimate
does not depend on the level, and the corrected values can be recomputed at
a different level from the same raw p-values without re-estimating the
empirical distribution. -/
theorem C5_adjust_decomposes {k : ℕ} (observed : Fin k → ℚ)
    (null : List (Fin k → ℚ)) (alpha alphaR other : ℚ) :
    estimate_pvalues observed null true alpha =
      adjust_pvalues (estimate_pvalues observed null false alphaR) alpha ∧
    estimate_pvalues observed null false alphaR =
      estimate_pvalues observed null false other ∧
    adjust_pvalues (estimate_pvalues observed null false alphaR) alpha =
      adjust_pvalues (estimate_pvalues observed null false alphaR) other :=
  ⟨rfl, rfl, rfl⟩

/-! ## C10: significance categories partition the node set -/

theorem sig_sum_eq_length (l : List (Bool × Bool)) :
    (l.map fun sc => sigSimOnly sc.1 sc.2).sum +
      (l.map fun sc => sigCompOnly sc.1 sc.2).sum +
      (l.map fun sc => sigBoth sc.1 sc.2).sum +
      (l.map fun sc => sigNeither sc.1 sc.2).sum = (l.length : ℤ) := by
  induction l with
  | nil => simp
  | cons hd tl ih =>
    have h1 : sigSimOnly hd.1 hd.2 + sigCompOnly hd.1 hd.2 +
        sigBoth hd.1 hd.2 + sigNeither hd.1 hd.2 = 1 := by
      rcases hd with ⟨s, c⟩
      cases s <;> cases c <;> decide
    simp only [List.map_cons, List.sum_cons, List.length_cons]
    push_cast
    linarith

/-- C10: the four significance categories constructed by the proteins
analysis (sim-only, comp-only, both, neither) partition the node set — for
every node exactly one indicator equals 1 and each is 0 or 1 — and hence
for every significance level the four reported fractions sum to 1. -/
theorem C10_sig_partition :
    (∀ s c : Bool,
      sigSimOnly s c + sigCompOnly s c + sigBoth s c + sigNeither s c = 1 ∧
      (sigSimOnly s c = 0 ∨ sigSimOnly s c = 1) ∧
      (sigCompOnly s c = 0 ∨ sigCompOnly s c = 1) ∧
      (sigBoth s c = 0 ∨ sigBoth s c = 1) ∧
      (sigNeither s c = 0 ∨ sigNeither s c = 1)) ∧
    (∀ l : List (Bool × Bool), l ≠ [] →
      sigFrac sigSimOnly l + sigFrac sigCompOnly l + sigFrac sigBoth l +
        sigFrac sigNeither l = 1) := by
  constructor
  · decide
  · intro l hl
    have h0 : l.length ≠ 0 := fun h => hl (List.length_eq_zero.mp h)
    have hlen : ((l.length : ℚ)) ≠ 0 := Nat.cast_ne_zero.mpr h0
    rw [sigFrac, sigFrac, sigFrac, sigFrac, div_add_div_same, div_add_div_same,
      div_add_div_same, div_eq_one_iff_eq hlen]
    exact_mod_cast sig_sum_eq_length l

/-! ## C6: global similarity aggregates counts before taking the ratio -/

/-- C6: for every simple undirected graph with at least one wedge, the
PathCensus global similarity equals `3·(triangle count)/(wedge count)`,
the ratio of whole-graph aggregated motif counts; consequently the 5-cycle
has global similarity 0 and every complete graph `K_n` (`n ≥ 3`) has global
similarity 1 — and the global value is not the average of the per-node
similarity coefficients, from which it differs already on a triangle with a
pendant vertex. -/
theorem C6_global_similarity :
    (∀ (n : ℕ) (G : FinGraph n), 0 < bruteWedges G →
      simGlobal G = 3 * (bruteTriangles G : ℚ) / (bruteWedges G : ℚ)) ∧
    simGlobal cycle5 = 0 ∧
    (∀ n : ℕ, 3 ≤ n → simGlobal (completeG n) = 1) ∧
    simGlobal triPendant ≠ meanSimNode triPendant := by
  refine ⟨?_, ?_, ?_, ?_⟩
  · intro n G hW
    have hW2 : ((bruteWedges G : ℚ)) ≠ 0 := Nat.cast_ne_zero.mpr hW.ne'
    rw [simGlobal, sum_triOrd_eq_card, card_triOrdSet_eq, sum_wedgeOrd_eq]
    push_cast
    field_simp
    ring
  · have h0 : (∑ i, triOrd cycle5 i) = 0 := by decide
    rw [simGlobal, h0]
    simp
  · intro n hn
    have hsum : (∑ i, triOrd (completeG n) i) =
        ∑ i, wedgeOrd (completeG n) i :=
      Finset.sum_congr rfl fun i _ => triOrd_completeG n i
    have hpos : 0 < ∑ i, wedgeOrd (completeG n) i := by
      refine Finset.sum_pos' (fun i _ => Nat.zero_le _)
        ⟨⟨0, by omega⟩, Finset.mem_univ _, ?_⟩
      apply wedgeOrd_pos
      rw [degree_completeG]
      omega
    rw [simGlobal, hsum]
    exact div_self (Nat.cast_ne_zero.mpr hpos.ne')
  · have t0 : triOrd triPendant 0 = 2 := by decide
    have t1 : triOrd triPendant 1 = 2 := by decide
    have t2 : triOrd triPendant 2 = 2 := by decide
    have t3 : triOrd triPendant 3 = 0 := by decide
    have w0 : wedgeOrd triPendant 0 = 6 := by decide
    have w1 : wedgeOrd triPendant 1 = 2 := by decide
    have w2 : wedgeOrd triPendant 2 = 2 := by decide
    have w3 : wedgeOrd triPendant 3 = 0 := by decide
    have hcard : (Finset.univ.filter
        fun i => wedgeOrd triPendant i ≠ 0).card = 3 := by decide
    have e1 : simGlobal triPendant = 3 / 5 := by
      rw [simGlobal, Fin.sum_univ_four, Fin.sum_univ_four,
        t0, t1, t2, t3, w0, w1, w2, w3]
      norm_num
    have e2 : meanSimNode triPendant = 7 / 9 := by
      rw [meanSimNode, Fin.sum_univ_four, t0, t1, t2, t3, w0, w1, w2, w3,
        hcard]
      norm_num
    rw [e1, e2]
    norm_num

/-- Witness for C6: on the complete graph `K₄` the wedge count is positive,
the global similarity equals `3·(triangle count)/(wedge count)`, and it
equals 1. -/
theorem C6_global_similarity_witness :
    (0 < bruteWedges (completeG 4) ∧
      simGlobal (completeG 4) =
        3 * (bruteTriangles (completeG 4) : ℚ) /
          (bruteWedges (completeG 4) : ℚ)) ∧
    ((3 : ℕ) ≤ 4 ∧ simGlobal (completeG 4) = 1) :=
  ⟨⟨by decide, C6_global_similarity.1 4 (completeG 4) (by decide)⟩,
   ⟨by norm_num, C6_global_similarity.2.2.1 4 (by norm_num)⟩⟩

/-! ## C7: sampling is deterministic given the seed -/

theorem sample_edges_cons {n : ℕ} (m : UBCM n) (p : Fin n × Fin n)
    (rest : List (Fin n × Fin n)) (st : RandState) :
    sample_edges m (p :: rest) st =
      (if (draw_unit st).1 < pij m p.1 p.2 then
          p :: (sample_edges m rest (draw_unit st).2).1
        else (sample_edges m rest (draw_unit st).2).1,
       (sample_edges m rest (draw_unit st).2).2) := rfl

theorem sample_edges_word {n : ℕ} (m : UBCM n) (ps : List (Fin n × Fin n)) :
    ∀ st₁ st₂ : RandState, st₁.word = st₂.word →
      (sample_edges m ps st₁).1 = (sample_edges m ps st₂).1 ∧
      (sample_edges m ps st₁).2.word = (sample_edges m ps st₂).2.word := by
  induction ps with
  | nil => intro st₁ st₂ h; exact ⟨rfl, h⟩
  | cons p rest ih =>
    intro st₁ st₂ h
    have hu : (draw_unit st₁).1 = (draw_unit st₂).1 := by
      simp [draw_unit, h]
    have hw : (draw_unit st₁).2.word = (draw_unit st₂).2.word := by
      simp [draw_unit, lcg_step, h]
    obtain ⟨he, hr⟩ := ih (draw_unit st₁).2 (draw_unit st₂).2 hw
    rw [sample_edges_cons, sample_edges_cons, hu, he]
    exact ⟨rfl, hr⟩

theorem sample_seq_succ {n : ℕ} (m : UBCM n) (k : ℕ) (st : RandState) :
    sample_seq m (k + 1) st =
      ((sample_one m st).1 :: (sample_seq m k (sample_one m st).2).1,
       (sample_seq m k (sample_one m st).2).2) := rfl

theorem sample_seq_word {n : ℕ} (m : UBCM n) (k : ℕ) :
    ∀ st₁ st₂ : RandState, st₁.word = st₂.word →
      (sample_seq m k st₁).1 = (sample_seq m k st₂).1 ∧
      (sample_seq m k st₁).2.word = (sample_seq m k st₂).2.word := by
  induction k with
  | zero => intro st₁ st₂ h; exact ⟨rfl, h⟩
  | succ k ih =>
    intro st₁ st₂ h
    obtain ⟨hg, hw⟩ := sample_edges_word m (all_pairs n) st₁ st₂ h
    obtain ⟨hs, hv⟩ := ih (sample_one m st₁).2 (sample_one m st₂).2 hw
    rw [sample_seq_succ, sample_seq_succ]
    have hg1 : (sample_one m st₁).1 = (sample_one m st₂).1 := hg
    rw [hg1, hs]
    exact ⟨rfl, hv⟩

/-- C7: sampling from a fitted UBCM model is deterministic given the seed —
two runs that call `set_seed` with the same seed (from arbitrary prior
process states) and then draw the same number of samples from the same model
produce identical sample sequences. -/
theorem C7_seed_determinism {n : ℕ} (m : UBCM n) (seed k : ℕ)
    (st₁ st₂ : RandState) :
    (sample_seq m k (set_seed seed st₁)).1 =
      (sample_seq m k (set_seed seed st₂)).1 :=
  (sample_seq_word m k (set_seed seed st₁) (set_seed seed st₂) rfl).1

/-! ## C3: calibrated effect sizes -/

/-- C3 counterexample: the calibrated effect size computed by the scripts is
not `log(observed / mean of the null values)`: for observed value `1` and
null values `[1, 4]` the code produces the mean of the per-sample log-ratios
`(log 1 + log (1/4)) / 2 = -log 2`, while the claimed formula gives
`log (1 / (5/2)) = -log (5/2)`. -/
theorem C3_counterexample : cdata 1 [1, 4] ≠ some (cdataClaim 1 [1, 4]) := by
  have f1 : (decide (0 < (1 : ℚ) * 1)) = true := by
    rw [decide_eq_true_eq]
    norm_num
  have f4 : (decide (0 < (1 : ℚ) * 4)) = true := by
    rw [decide_eq_true_eq]
    norm_num
  have hk : keptLogs 1 [1, 4] =
      [Real.log ((1 : ℝ) / 1), Real.log ((1 : ℝ) / 4)] := by
    rw [keptLogs]
    simp [List.filter_cons, f1, f4]
  have hm : listMean [1, 4] = 5 / 2 := by
    norm_num [listMean]
  intro h
  rw [cdata, hk, if_neg (by simp), cdataClaim, hm] at h
  have h' := Option.some.inj h
  have e1 : Real.log ((1 : ℝ) / 1) = 0 := by
    norm_num
  have e2 : Real.log ((1 : ℝ) / 4) = -Real.log 4 := by
    rw [one_div, Real.log_inv]
  have e4 : Real.log ((1 : ℝ) / (5 / 2)) = Real.log 2 - Real.log 5 := by
    rw [show (1 : ℝ) / (5 / 2) = 2 / 5 by norm_num,
      Real.log_div (by norm_num) (by norm_num)]
  have e5 : Real.log 4 = 2 * Real.log 2 := by
    rw [show (4 : ℝ) = 2 ^ 2 by norm_num, Real.log_pow]
    push_cast
    ring
  have e6 : Real.log 4 < Real.log 5 := Real.log_lt_log (by norm_num) (by norm_num)
  simp only [List.sum_cons, List.sum_nil, List.length_cons, List.length_nil,
    e1, e2] at h'
  push_cast at h'
  rw [e4, e5] at h'
  linarith [h', e6]

/-- C3 (amended): for positive observed and null values the calibrated
effect size per entity equals the mean over the null samples of
`log(observed / null_s)` (the log of the observed value over the geometric
mean of the null values), and samples with a zero null value are dropped
(treated as missing) rather than propagated as infinities. -/
theorem C3_calibration (obs : ℚ) (null : List ℚ) (h1 : 0 < obs)
    (h2 : ∀ v ∈ null, 0 < v) (h3 : null ≠ []) :
    cdata obs null =
      some ((null.map fun v : ℚ => Real.log ((obs : ℝ) / (v : ℝ))).sum /
        (null.length : ℝ)) ∧
    cdata obs (0 :: null) = cdata obs null := by
  have hfil : (null.filter fun v => decide (0 < obs * v)) = null :=
    List.filter_eq_self.mpr fun v hv => decide_eq_true (mul_pos h1 (h2 v hv))
  have hk : keptLogs obs null =
      null.map fun v : ℚ => Real.log ((obs : ℝ) / (v : ℝ)) := by
    rw [keptLogs, hfil]
  have hzero : keptLogs obs (0 :: null) = keptLogs obs null := by
    rw [keptLogs, keptLogs]
    have h0 : (decide (0 < obs * 0)) = false := by
      simp
    rw [List.filter_cons, h0]
    simp
  constructor
  · rw [cdata, hk, if_neg fun hmap => h3 (List.map_eq_nil_iff.mp hmap),
      List.length_map]
  · rw [cdata, cdata, hzero]

/-- Witness for C3 (amended): at observed value 1 with null values `[2]`
the calibrated value is the mean of the log-ratios and a prepended zero null
value is dropped. -/
theorem C3_calibration_witness :
    ((0 : ℚ) < 1 ∧ (∀ v ∈ [(2 : ℚ)], 0 < v) ∧ ([(2 : ℚ)] ≠ [])) ∧
    cdata 1 [2] =
      some ((([(2 : ℚ)].map fun v : ℚ =>
        Real.log (((1 : ℚ) : ℝ) / (v : ℝ))).sum) /
        (([(2 : ℚ)].length : ℝ))) ∧
    cdata 1 (0 :: [2]) = cdata 1 [2] :=
  ⟨⟨by norm_num, by norm_num, by simp⟩,
   C3_calibration 1 [2] (by norm_num) (by norm_num) (by simp)⟩

/-! ## C9: the Netzschleuder fetch cache -/

/-- C9: for every dataset name, network name and alias, `fetch` with a
resolved `force = False` returns the graph stored in the cache file and
performs no download when that file exists; otherwise (forced, or the file
is absent) it downloads the network, writes it to the cache file, and
returns the downloaded graph — and after any fetch the cache file for that
dataset/alias holds the returned graph. -/
theorem C9_fetch_cache {G : Type} (dl : String → G) (selfName : String)
    (selfForce : Bool) (network aliasArg : Option String)
    (force : Option Bool) (st : NSCache G) :
    (resolveForce selfForce force = false →
      ∀ gc, st.files.lookup
          (cachePath selfName
            (resolveAlias (resolveNetwork selfName network) aliasArg)) =
          some gc →
        fetch dl selfName selfForce network aliasArg force st =
          (gc, st, false)) ∧
    ((resolveForce selfForce force = true ∨
        st.files.lookup
          (cachePath selfName
            (resolveAlias (resolveNetwork selfName network) aliasArg)) =
          none) →
      fetch dl selfName selfForce network aliasArg force st =
        (dl (resolveNetwork selfName network),
          ⟨(cachePath selfName
              (resolveAlias (resolveNetwork selfName network) aliasArg),
            dl (resolveNetwork selfName network)) :: st.files⟩, true)) ∧
    (fetch dl selfName selfForce network aliasArg force st).2.1.files.lookup
        (cachePath selfName
          (resolveAlias (resolveNetwork selfName network) aliasArg)) =
      some (fetch dl selfName selfForce network aliasArg force st).1 := by
  refine ⟨?_, ?_, ?_⟩
  · intro hf gc hl
    simp [fetch, hf, hl]
  · rintro (hf | hl)
    · simp [fetch, hf]
    · cases hf : resolveForce selfForce force
      · simp [fetch, hf, hl]
      · simp [fetch, hf]
  · cases hf : resolveForce selfForce force
    · cases hl : st.files.lookup
          (cachePath selfName
            (resolveAlias (resolveNetwork selfName network) aliasArg))
      · simp [fetch, hf, hl]
      · simp [fetch, hf, hl]
    · simp [fetch, hf]

/-- Witness for C9: on a one-file cache, an unforced fetch of the cached
alias returns the stored graph without downloading, and the cache file still
holds it. -/
theorem C9_fetch_cache_witness :
    (resolveForce false none = false ∧
      cacheW.files.lookup
        (cachePath "ds" (resolveAlias (resolveNetwork "ds" none)
          (some "net"))) = some 3 ∧
      fetch dlW "ds" false none (some "net") none cacheW = (3, cacheW, false)) ∧
    (fetch dlW "ds" false none (some "net") none cacheW).2.1.files.lookup
        (cachePath "ds" (resolveAlias (resolveNetwork "ds" none)
          (some "net"))) =
      some (fetch dlW "ds" false none (some "net") none cacheW).1 := by
  have h := C9_fetch_cache dlW "ds" false none (some "net") none cacheW
  refine ⟨⟨rfl, rfl, h.1 rfl 3 rfl⟩, h.2.2⟩

/-! ## C8: graph preprocessing -/

theorem normEdge_le (e : ℕ × ℕ) : (normEdge e).1 ≤ (normEdge e).2 := by
  rw [normEdge]
  split <;> omega

theorem normEdge_lt (e : ℕ × ℕ) (h : e.1 ≠ e.2) :
    (normEdge e).1 < (normEdge e).2 := by
  rw [normEdge]
  split <;> omega

theorem simplified_directed (g : MGraph) :
    (toUndirected (simplifyG g)).directed = false := by
  rcases g with ⟨n, d, es⟩
  cases d <;> simp [simplifyG, toUndirected]

theorem simplified_n (g : MGraph) : (toUndirected (simplifyG g)).n = g.n := by
  rcases g with ⟨n, d, es⟩
  cases d <;> simp [simplifyG, toUndirected]

theorem simplified_nodup (g : MGraph) :
    (toUndirected (simplifyG g)).edges.Nodup := by
  rcases g with ⟨n, d, es⟩
  cases d <;> simp [simplifyG, toUndirected, List.nodup_dedup]

theorem simplified_strict (g : MGraph) :
    ∀ e ∈ (toUndirected (simplifyG g)).edges, e.1 < e.2 := by
  rcases g with ⟨n, d, es⟩
  cases d
  · intro e he
    simp only [simplifyG, toUndirected, Bool.false_eq_true, if_false,
      List.mem_dedup, List.mem_filter, List.mem_map, decide_eq_true_eq] at he
    obtain ⟨⟨e₀, _, rfl⟩, hne⟩ := he
    exact lt_of_le_of_ne (normEdge_le e₀) hne
  · intro e he
    simp only [simplifyG, toUndirected, if_true, List.mem_dedup,
      List.mem_map, List.mem_filter, decide_eq_true_eq] at he
    obtain ⟨e₀, ⟨-, hne⟩, rfl⟩ := he
    exact normEdge_lt e₀ hne

theorem pick_foldl_spec :
    ∀ (l : List (List ℕ)) (acc : Option (List ℕ)) (b : List ℕ),
      l.foldl pickStep acc = some b →
      (b ∈ l ∨ acc = some b) ∧ (∀ c ∈ l, c.length ≤ b.length) ∧
      (∀ a, acc = some a → a.length ≤ b.length) := by
  intro l
  induction l with
  | nil =>
    intro acc b hb
    simp only [List.foldl_nil] at hb
    subst hb
    refine ⟨Or.inr rfl, by simp, fun a ha => ?_⟩
    exact le_of_eq (congrArg List.length (Option.some.inj ha).symm)
  | cons c rest ih =>
    intro acc b hb
    rw [List.foldl_cons] at hb
    obtain ⟨hmem, hrest, hstep⟩ := ih (pickStep acc c) b hb
    have hex : ∃ a, pickStep acc c = some a ∧ c.length ≤ a.length := by
      cases acc with
      | none => exact ⟨c, rfl, le_refl _⟩
      | some a0 =>
        by_cases hlt : a0.length < c.length
        · exact ⟨c, by simp [pickStep, hlt], le_refl _⟩
        · exact ⟨a0, by simp [pickStep, hlt], not_lt.mp hlt⟩
    obtain ⟨a, ha1, ha2⟩ := hex
    have hc_le : c.length ≤ b.length := ha2.trans (hstep a ha1)
    refine ⟨?_, ?_, ?_⟩
    · rcases hmem with hbr | hse
      · exact Or.inl (List.mem_cons_of_mem c hbr)
      · cases acc with
        | none =>
          have hcb : c = b := by
            simpa [pickStep] using hse
          exact Or.inl (hcb ▸ List.mem_cons_self c rest)
        | some a0 =>
          by_cases hlt : a0.length < c.length
          · have hcb : c = b := by
              simpa [pickStep, hlt] using hse
            exact Or.inl (hcb ▸ List.mem_cons_self c rest)
          · have hab : a0 = b := by
              simpa [pickStep, hlt] using hse
            exact Or.inr (congrArg some hab)
    · intro x hx
      rcases List.mem_cons.mp hx with rfl | hx2
      · exact hc_le
      · exact hrest x hx2
    · intro a0 ha0
      subst ha0
      have hex2 : ∃ r, pickStep (some a0) c = some r ∧ a0.length ≤ r.length := by
        by_cases hlt : a0.length < c.length
        · exact ⟨c, by simp [pickStep, hlt], le_of_lt hlt⟩
        · exact ⟨a0, by simp [pickStep, hlt], le_refl _⟩
      obtain ⟨r, hr1, hr2⟩ := hex2
      exact hr2.trans (hstep r hr1)

theorem pick_foldl_total :
    ∀ (l : List (List ℕ)) (a : List ℕ),
      ∃ b, l.foldl pickStep (some a) = some b := by
  intro l
  induction l with
  | nil => intro a; exact ⟨a, rfl⟩
  | cons c rest ih =>
    intro a
    rw [List.foldl_cons]
    by_cases hlt : a.length < c.length
    · simpa only [pickStep, if_pos hlt] using ih c
    · simpa only [pickStep, if_neg hlt] using ih a

theorem pickLargest_spec (comps : List (List ℕ)) (hne : comps ≠ []) :
    ∃ b, pickLargest comps = some b ∧ b ∈ comps ∧
      ∀ c ∈ comps, c.length ≤ b.length := by
  rcases comps with _ | ⟨c, rest⟩
  · exact absurd rfl hne
  · rw [pickLargest, List.foldl_cons]
    have h0 : pickStep none c = some c := rfl
    rw [h0]
    obtain ⟨b, hb⟩ := pick_foldl_total rest c
    obtain ⟨hmem, hrest, hstep⟩ := pick_foldl_spec rest (some c) b hb
    refine ⟨b, hb, ?_, ?_⟩
    · rcases hmem with h | h
      · exact List.mem_cons_of_mem _ h
      · exact (Option.some.inj h) ▸ List.mem_cons_self c rest
    · intro x hx
      rcases List.mem_cons.mp hx with rfl | hx2
      · exact hstep x rfl
      · exact hrest x hx2

theorem comps_foldl_mem {g : MGraph} :
    ∀ (l : List ℕ) (acc : List (List ℕ)) (c : List ℕ),
      c ∈ l.foldl (compStep g) acc → c ∈ acc ∨ ∃ v ∈ l, c = reach g v := by
  intro l
  induction l with
  | nil => intro acc c hc; exact Or.inl hc
  | cons v rest ih =>
    intro acc c hc
    rw [List.foldl_cons] at hc
    rcases ih (compStep g acc v) c hc with h | ⟨w, hw, rfl⟩
    · rw [compStep] at h
      split at h
      · exact Or.inl h
      · rcases List.mem_append.mp h with h2 | h2
        · exact Or.inl h2
        · exact Or.inr ⟨v, List.mem_cons_self _ _, List.mem_singleton.mp h2⟩
    · exact Or.inr ⟨w, List.mem_cons_of_mem _ hw, rfl⟩

theorem componentsM_mem {g : MGraph} (c : List ℕ) (hc : c ∈ componentsM g) :
    ∃ v ∈ List.range g.n, c = reach g v := by
  rcases comps_foldl_mem (List.range g.n) [] c hc with h | h
  · cases h
  · exact h

theorem reach_sorted (g : MGraph) (v : ℕ) (hn : 0 < g.n) :
    List.Pairwise (· < ·) (reach g v) := by
  rw [reach]
  obtain ⟨m, hm⟩ : ∃ m, g.n = m + 1 := ⟨g.n - 1, by omega⟩
  rw [hm, Function.iterate_succ_apply', reachStep]
  exact (List.pairwise_lt_range g.n).sublist (List.filter_sublist _)

theorem componentsM_sorted {g : MGraph} (c : List ℕ)
    (hc : c ∈ componentsM g) : List.Pairwise (· < ·) c := by
  obtain ⟨v, hv, rfl⟩ := componentsM_mem c hc
  exact reach_sorted g v (lt_of_le_of_lt (Nat.zero_le v) (List.mem_range.mp hv))

theorem componentsM_ne_nil (g : MGraph) (hn : 0 < g.n) :
    componentsM g ≠ [] := by
  have key : ∀ (l : List ℕ) (acc : List (List ℕ)), acc ≠ [] →
      l.foldl (compStep g) acc ≠ [] := by
    intro l
    induction l with
    | nil => intro acc h; exact h
    | cons v rest ih =>
      intro acc h
      rw [List.foldl_cons]
      apply ih
      rw [compStep]
      split
      · exact h
      · simp
  rw [componentsM]
  obtain ⟨m, hm⟩ : ∃ m, g.n = m + 1 := ⟨g.n - 1, by omega⟩
  rw [hm, List.range_succ_eq_map, List.foldl_cons]
  apply key
  have h0 : compStep g [] 0 = [reach g 0] := rfl
  rw [h0]
  simp

theorem indexOf_lt_of_sorted :
    ∀ (l : List ℕ), List.Pairwise (· < ·) l →
      ∀ a b, a ∈ l → b ∈ l → a < b → l.indexOf a < l.indexOf b := by
  intro l
  induction l with
  | nil => intro _ a b ha _ _; cases ha
  | cons x t ih =>
    intro hp a b ha hb hab
    rw [List.pairwise_cons] at hp
    obtain ⟨hx, ht⟩ := hp
    by_cases hax : a = x
    · subst hax
      rw [List.indexOf_cons_self, List.indexOf_cons_ne t hab.ne]
      exact Nat.succ_pos _
    · have hat : a ∈ t := by
        rcases List.mem_cons.mp ha with h | h
        · exact absurd h hax
        · exact h
      have hbx : b ≠ x := by
        intro hbe
        subst hbe
        exact absurd hab (lt_asymm (hx a hat))
      have hbt : b ∈ t := by
        rcases List.mem_cons.mp hb with h | h
        · exact absurd h hbx
        · exact h
      rw [List.indexOf_cons_ne t (Ne.symm hax), List.indexOf_cons_ne t (Ne.symm hbx)]
      exact Nat.succ_lt_succ (ih ht a b hat hbt hab)

theorem induced_simple (h : MGraph) (vids : List ℕ)
    (hnd : h.edges.Nodup) (hstrict : ∀ e ∈ h.edges, e.1 < e.2)
    (hsorted : List.Pairwise (· < ·) vids) :
    (inducedSubgraph h vids).edges.Nodup ∧
      ∀ e ∈ (inducedSubgraph h vids).edges, e.1 < e.2 := by
  constructor
  · apply List.Nodup.map_on
    · intro x hx y hy hxy
      rw [List.mem_filter] at hx hy
      have hx1 : x.1 ∈ vids := by
        have := (Bool.and_eq_true _ _ |>.mp hx.2).1
        simpa using this
      have hx2 : x.2 ∈ vids := by
        have := (Bool.and_eq_true _ _ |>.mp hx.2).2
        simpa using this
      have hy1 : y.1 ∈ vids := by
        have := (Bool.and_eq_true _ _ |>.mp hy.2).1
        simpa using this
      have hy2 : y.2 ∈ vids := by
        have := (Bool.and_eq_true _ _ |>.mp hy.2).2
        simpa using this
      simp only [Prod.mk.injEq] at hxy
      exact Prod.ext ((List.indexOf_inj hx1 hy1).mp hxy.1)
        ((List.indexOf_inj hx2 hy2).mp hxy.2)
    · exact hnd.filter _
  · intro e he
    rw [inducedSubgraph] at he
    simp only [List.mem_map] at he
    obtain ⟨e₀, he₀, rfl⟩ := he
    rw [List.mem_filter] at he₀
    have h1 : e₀.1 ∈ vids := by
      have := (Bool.and_eq_true _ _ |>.mp he₀.2).1
      simpa using this
    have h2 : e₀.2 ∈ vids := by
      have := (Bool.and_eq_true _ _ |>.mp he₀.2).2
      simpa using this
    exact indexOf_lt_of_sorted vids hsorted e₀.1 e₀.2 h1 h2 (hstrict e₀ he₀.1)

/-- C8: for every nonempty input graph, `preprocess_graph` with default
arguments returns an undirected simple graph (no self-loops, no duplicate or
multi-edges: its edge list is duplicate-free and every edge is a strictly
increasing vertex pair) that equals the induced subgraph, in the simplified
undirected graph, on a component of maximal size chosen from its component
list; the original graph value is left untouched (the Python code copies the
graph before mutating, and the embedding is accordingly a pure function of
its input). -/
theorem C8_preprocess (g : MGraph) (hn : 0 < g.n) :
    (preprocess_graph g).directed = false ∧
    (preprocess_graph g).edges.Nodup ∧
    (∀ e ∈ (preprocess_graph g).edges, e.1 < e.2) ∧
    ∃ vids, pickLargest (componentsM (toUndirected (simplifyG g))) = some vids ∧
      vids ∈ componentsM (toUndirected (simplifyG g)) ∧
      (∀ c ∈ componentsM (toUndirected (simplifyG g)),
        c.length ≤ vids.length) ∧
      preprocess_graph g = inducedSubgraph (toUndirected (simplifyG g)) vids := by
  have hn2 : 0 < (toUndirected (simplifyG g)).n := by
    rw [simplified_n]
    exact hn
  obtain ⟨vids, hpick, hmem, hmax⟩ :=
    pickLargest_spec _ (componentsM_ne_nil (toUndirected (simplifyG g)) hn2)
  have heq : preprocess_graph g =
      inducedSubgraph (toUndirected (simplifyG g)) vids := by
    rw [preprocess_graph, get_largest_component, hpick]
  obtain ⟨hnodup, hstrict⟩ := induced_simple (toUndirected (simplifyG g)) vids
    (simplified_nodup g) (simplified_strict g) (componentsM_sorted vids hmem)
  refine ⟨?_, ?_, ?_, vids, hpick, hmem, hmax, heq⟩
  · rw [heq, inducedSubgraph]
    exact simplified_directed g
  · rw [heq]
    exact hnodup
  · rw [heq]
    exact hstrict

/-- Witness for C8: a five-vertex graph with a reciprocal duplicate edge, a
self-loop and two components preprocesses to the induced subgraph on its
largest component, which is simple and undirected. -/
theorem C8_preprocess_witness :
    0 < (MGraph.mk 5 false [(1, 0), (0, 1), (2, 2), (1, 2), (3, 4)]).n ∧
    ((preprocess_graph
        (MGraph.mk 5 false [(1, 0), (0, 1), (2, 2), (1, 2), (3, 4)])).directed
          = false ∧
      (preprocess_graph
        (MGraph.mk 5 false [(1, 0), (0, 1), (2, 2), (1, 2), (3, 4)])).edges.Nodup ∧
      (∀ e ∈ (preprocess_graph
        (MGraph.mk 5 false [(1, 0), (0, 1), (2, 2), (1, 2), (3, 4)])).edges,
          e.1 < e.2) ∧
      ∃ vids, pickLargest (componentsM (toUndirected (simplifyG
          (MGraph.mk 5 false [(1, 0), (0, 1), (2, 2), (1, 2), (3, 4)])))) =
            some vids ∧
        vids ∈ componentsM (toUndirected (simplifyG
          (MGraph.mk 5 false [(1, 0), (0, 1), (2, 2), (1, 2), (3, 4)]))) ∧
        (∀ c ∈ componentsM (toUndirected (simplifyG
          (MGraph.mk 5 false [(1, 0), (0, 1), (2, 2), (1, 2), (3, 4)]))),
            c.length ≤ vids.length) ∧
        preprocess_graph
            (MGraph.mk 5 false [(1, 0), (0, 1), (2, 2), (1, 2), (3, 4)]) =
          inducedSubgraph (toUndirected (simplifyG
            (MGraph.mk 5 false [(1, 0), (0, 1), (2, 2), (1, 2), (3, 4)])))
            vids) :=
  ⟨by decide,
   C8_preprocess (MGraph.mk 5 false [(1, 0), (0, 1), (2, 2), (1, 2), (3, 4)])
     (by decide)⟩

/-- Witness for C10: on a three-node example the four fractions sum to 1. -/
theorem C10_sig_partition_witness :
    ([((true : Bool), (false : Bool)), (true, true), (false, false)] ≠
      ([] : List (Bool × Bool))) ∧
    sigFrac sigSimOnly [(true, false), (true, true), (false, false)] +
      sigFrac sigCompOnly [(true, false), (true, true), (false, false)] +
      sigFrac sigBoth [(true, false), (true, true), (false, false)] +
      sigFrac sigNeither [(true, false), (true, true), (false, false)] = 1 :=
  ⟨by decide, C10_sig_partition.2 _ (by decide)⟩

end SCS
